import Mathlib

/-!
Verification of the context-container mechanism of `src/context.rs`.

The Rust code defines, via the `new_context_type!` macro, a type-level
cons list: a node struct `$context_name { head : T, tail : C }` and a
terminal marker `$empty_context_name`, together with trait
implementations
  * `Push<U>` (extend): wrap the old container as the tail under a new
    head, for both the marker and node types;
  * `Has<T>` (get / get_mut / set): the base-case impl on a node headed
    by `T` acts on `head`; the generated matrix impls, one per ordered
    pair of distinct declared types, delegate to the tail;
  * `Pop<T>` (remove): the base-case impl on a node headed by `T` returns
    `(head, tail)`; the matrix impls pop the tail and re-wrap the head.

We embed this shallowly.  A container value is an inductive cons list
`Ctx ι El` whose nodes carry an item-type tag `tag : ι` and a head value
of type `El tag`; the Rust static type of a container corresponds to the
list `Ctx.tags` of its tags, outermost first.  Trait dispatch — "does the
base-case impl for the head type apply, or does a matrix impl delegate to
the tail?" — becomes a decidable tag-equality test.  A trait bound that
Rust would fail to resolve (no capability for `T`) corresponds to the
`Option`-returning operation producing `none`; the compile-time
capability precondition is the hypothesis `t ∈ c.tags`.
-/

set_option autoImplicit false
set_option linter.unusedSectionVars false

universe u v

namespace Swagger

/-- Container values built by the `new_context_type!` macro: `emp` is the
terminal marker struct `$empty_context_name`, and `cons tag head tail` is
the node struct `$context_name { head, tail }` whose head has the item
type tagged `tag`. -/
inductive Ctx (ι : Type u) (El : ι → Type v) : Type (max u v) where
  | emp : Ctx ι El
  | cons (tag : ι) (head : El tag) (tail : Ctx ι El) : Ctx ι El

namespace Ctx

variable {ι : Type u} {El : ι → Type v}

/-- The Rust static type of a container value: the list of item-type tags,
outermost head first, e.g. `$context_name<T1, $context_name<T2, $empty>>`
becomes `[t1, t2]`. -/
def tags : Ctx ι El → List ι
  | .emp => []
  | .cons t _ tail => t :: tail.tags

/-- `Push::push` (the `extend` capability).  Both the impl for the empty
marker and the impl for a node wrap `self` as the tail under the new head;
there is no duplicate check. -/
def push (c : Ctx ι El) (t : ι) (x : El t) : Ctx ι El :=
  Ctx.cons t x c

variable [DecidableEq ι]

/-- `Has::get` dispatch.  On a node, the base-case impl
`Has<T> for $context_name<T, C>` returns `&self.head` when the head type
is `T`; otherwise the matrix impl `Has<T> for $context_name<S, C>`
(generated for each ordered pair of distinct declared types) delegates to
`self.tail.get()`.  `none` models the absence of any impl to call. -/
def get? : Ctx ι El → (t : ι) → Option (El t)
  | .emp, _ => none
  | .cons s x tail, t =>
    if h : s = t then some (h ▸ x) else tail.get? t

/-- `Pop::pop` (the `remove` capability).  The base-case impl
`Pop<T> for $context_name<T, C>` returns `(self.head, self.tail)`; the
matrix impl pops the tail and re-wraps the unchanged head around the
popped tail.  `none` models the absence of any impl to call. -/
def pop? : Ctx ι El → (t : ι) → Option (El t × Ctx ι El)
  | .emp, _ => none
  | .cons s x tail, t =>
    if h : s = t then some (h ▸ x, tail)
    else (tail.pop? t).map fun vc => (vc.1, Ctx.cons s x vc.2)

/-- `Has::set`.  The base-case impl assigns `self.head = item`; the matrix
impl delegates to `self.tail.set(item)`.  The nesting shape is untouched:
only the one slot's contents change. -/
def set? : Ctx ι El → (t : ι) → El t → Option (Ctx ι El)
  | .emp, _, _ => none
  | .cons s x tail, t, v =>
    if _ : s = t then some (Ctx.cons t v tail)
    else (tail.set? t v).map fun tl => Ctx.cons s x tl

/-- `Has::get_mut`, observed through a write: the base-case impl returns
`&mut self.head`, so writing `v` through it replaces the head; the matrix
impl returns `self.tail.get_mut()`, so the write lands in the tail and the
head is untouched. -/
def getMutWrite? : Ctx ι El → (t : ι) → El t → Option (Ctx ι El)
  | .emp, _, _ => none
  | .cons s x tail, t, v =>
    if _ : s = t then some (Ctx.cons t v tail)
    else (tail.getMutWrite? t v).map fun tl => Ctx.cons s x tl

/-- Flatten a container to the list of its slots, outermost first.  Used
to state frame properties: two containers with the same `toList` have the
same slots, values and nesting order. -/
def toList : Ctx ι El → List ((s : ι) × El s)
  | .emp => []
  | .cons s x tail => ⟨s, x⟩ :: tail.toList

end Ctx

/-- The outermost slot of item type `t` in a flattened slot list: the
specification of what `get` resolves to. -/
def outermostVal? {ι : Type u} {El : ι → Type v} [DecidableEq ι]
    (t : ι) : List ((s : ι) × El s) → Option (El t)
  | [] => none
  | p :: rest =>
    if h : p.1 = t then some (h ▸ p.2) else outermostVal? t rest

/-- Excise exactly the outermost slot of item type `t` from a flattened
slot list, leaving every other slot and their order intact: the
specification of `remove`'s effect on the remainder. -/
def eraseOutermost {ι : Type u} {El : ι → Type v} [DecidableEq ι]
    (t : ι) : List ((s : ι) × El s) → List ((s : ι) × El s)
  | [] => []
  | p :: rest =>
    if p.1 = t then rest else p :: eraseOutermost t rest

/-- Replace the contents of the outermost slot of item type `t` in a
flattened slot list, leaving every other slot (including inner slots of
the same type) and the shape intact: the specification of `set`'s effect. -/
def setOutermost {ι : Type u} {El : ι → Type v} [DecidableEq ι]
    (t : ι) (x : El t) : List ((s : ι) × El s) → List ((s : ι) × El s)
  | [] => []
  | p :: rest =>
    if p.1 = t then ⟨t, x⟩ :: rest else p :: setOutermost t x rest

/-- `ContextWrapper`: pairs a handler/API reference with an owned context
value.  In the embedding the borrowed reference `&'a T` is represented by
the value it refers to. -/
structure ContextWrapper (T : Type u) (C : Type v) where
  api : T
  context : C

/-- `ContextWrapper::new`. -/
def ContextWrapper.new {T : Type u} {C : Type v} (api : T) (context : C) :
    ContextWrapper T C :=
  ⟨api, context⟩

/-- `ContextWrapperExt::with_context`: the provided method body is
`ContextWrapper::new(self, context)`. -/
def with_context {T : Type u} {C : Type v} (api : T) (context : C) :
    ContextWrapper T C :=
  ContextWrapper.new api context

/-- The `make_context_ty!` macro on a list of item-type tags (outermost
first): `make_context_ty!(C, E, T, Ts...)` expands to
`C<T, make_context_ty!(C, E, Ts...)>` and the empty case to `E`; in the
embedding a node type is its head tag consed onto its tail's tag list. -/
def make_context_ty {ι : Type u} : List ι → List ι
  | [] => []
  | t :: ts => t :: make_context_ty ts

/-- The `make_context!` macro on a list of slot values (outermost first):
`make_context!(C, E, v, vs...)` expands to
`make_context!(C, E, vs...).push(v)` and the empty case to
`E::default()`. -/
def make_context {ι : Type u} {El : ι → Type v} :
    List ((s : ι) × El s) → Ctx ι El
  | [] => Ctx.emp
  | v :: vs => (make_context vs).push v.1 v.2

/-! ### Basic dispatch lemmas

One lemma per constructor/branch of each operation, mirroring which trait
impl Rust resolves to: the head-matching base-case impl or the
tail-delegating matrix impl. -/

namespace Ctx

variable {ι : Type u} {El : ι → Type v} [DecidableEq ι]

@[simp]
theorem tags_emp : (Ctx.emp : Ctx ι El).tags = [] := rfl

@[simp]
theorem tags_cons (t : ι) (x : El t) (c : Ctx ι El) :
    (Ctx.cons t x c).tags = t :: c.tags := rfl

@[simp]
theorem toList_emp : (Ctx.emp : Ctx ι El).toList = [] := rfl

@[simp]
theorem toList_cons (t : ι) (x : El t) (c : Ctx ι El) :
    (Ctx.cons t x c).toList = ⟨t, x⟩ :: c.toList := rfl

@[simp]
theorem push_def (c : Ctx ι El) (t : ι) (x : El t) :
    c.push t x = Ctx.cons t x c := rfl

@[simp]
theorem get?_emp (t : ι) : (Ctx.emp : Ctx ι El).get? t = none := rfl

@[simp]
theorem get?_cons_self (t : ι) (x : El t) (c : Ctx ι El) :
    (Ctx.cons t x c).get? t = some x := by
  simp [Ctx.get?]

@[simp]
theorem get?_cons_ne (s t : ι) (h : s ≠ t) (x : El s) (c : Ctx ι El) :
    (Ctx.cons s x c).get? t = c.get? t := by
  simp [Ctx.get?, h]

@[simp]
theorem pop?_emp (t : ι) : (Ctx.emp : Ctx ι El).pop? t = none := rfl

@[simp]
theorem pop?_cons_self (t : ι) (x : El t) (c : Ctx ι El) :
    (Ctx.cons t x c).pop? t = some (x, c) := by
  simp [Ctx.pop?]

@[simp]
theorem pop?_cons_ne (s t : ι) (h : s ≠ t) (x : El s) (c : Ctx ι El) :
    (Ctx.cons s x c).pop? t
      = (c.pop? t).map fun vc => (vc.1, Ctx.cons s x vc.2) := by
  simp [Ctx.pop?, h]

@[simp]
theorem set?_emp (t : ι) (v : El t) : (Ctx.emp : Ctx ι El).set? t v = none := rfl

@[simp]
theorem set?_cons_self (t : ι) (x v : El t) (c : Ctx ι El) :
    (Ctx.cons t x c).set? t v = some (Ctx.cons t v c) := by
  simp [Ctx.set?]

@[simp]
theorem set?_cons_ne (s t : ι) (h : s ≠ t) (x : El s) (v : El t) (c : Ctx ι El) :
    (Ctx.cons s x c).set? t v = (c.set? t v).map fun tl => Ctx.cons s x tl := by
  simp [Ctx.set?, h]

@[simp]
theorem getMutWrite?_emp (t : ι) (v : El t) :
    (Ctx.emp : Ctx ι El).getMutWrite? t v = none := rfl

@[simp]
theorem getMutWrite?_cons_self (t : ι) (x v : El t) (c : Ctx ι El) :
    (Ctx.cons t x c).getMutWrite? t v = some (Ctx.cons t v c) := by
  simp [Ctx.getMutWrite?]

@[simp]
theorem getMutWrite?_cons_ne (s t : ι) (h : s ≠ t) (x : El s) (v : El t)
    (c : Ctx ι El) :
    (Ctx.cons s x c).getMutWrite? t v
      = (c.getMutWrite? t v).map fun tl => Ctx.cons s x tl := by
  simp [Ctx.getMutWrite?, h]

/-! ### Agreement and frame lemmas -/

theorem tags_eq_map_toList (c : Ctx ι El) :
    c.tags = c.toList.map Sigma.fst := by
  induction c with
  | emp => rfl
  | cons s x tail ih => simp [ih]

/-- `get` resolves to the outermost slot of the requested item type. -/
theorem get?_eq_outermostVal (c : Ctx ι El) (t : ι) :
    c.get? t = outermostVal? t c.toList := by
  induction c with
  | emp => rfl
  | cons s x tail ih =>
    by_cases h : s = t
    · subst h; simp [outermostVal?]
    · simp [outermostVal?, h, ih]

/-- The value returned by `pop` is the one `get` resolves to. -/
theorem pop?_map_fst (c : Ctx ι El) (t : ι) :
    (c.pop? t).map Prod.fst = c.get? t := by
  induction c with
  | emp => rfl
  | cons s x tail ih =>
    by_cases h : s = t
    · subst h; simp
    · simp [h, Option.map_map, ← ih]
      rfl

theorem get?_isSome_of_mem (c : Ctx ι El) (t : ι) (h : t ∈ c.tags) :
    (c.get? t).isSome := by
  induction c with
  | emp => simp at h
  | cons s x tail ih =>
    by_cases hs : s = t
    · subst hs; simp
    · simp [hs]
      exact ih (by simpa [Ne.symm hs] using h)

theorem pop?_isSome_of_mem (c : Ctx ι El) (t : ι) (h : t ∈ c.tags) :
    (c.pop? t).isSome := by
  induction c with
  | emp => simp at h
  | cons s x tail ih =>
    by_cases hs : s = t
    · subst hs; simp
    · simp [hs]
      exact ih (by simpa [Ne.symm hs] using h)

theorem set?_isSome_of_mem (c : Ctx ι El) (t : ι) (v : El t) (h : t ∈ c.tags) :
    (c.set? t v).isSome := by
  induction c with
  | emp => simp at h
  | cons s x tail ih =>
    by_cases hs : s = t
    · subst hs; simp
    · simp [hs]
      exact ih (by simpa [Ne.symm hs] using h)

/-- What `pop` returns: the outermost value of the requested item type,
and a remainder whose slot list is the original one with exactly that
slot excised. -/
theorem pop?_eq_some (c : Ctx ι El) (t : ι) (v : El t) (rest : Ctx ι El)
    (h : c.pop? t = some (v, rest)) :
    c.get? t = some v ∧ rest.toList = eraseOutermost t c.toList := by
  induction c generalizing rest with
  | emp => simp at h
  | cons s x tail ih =>
    by_cases hs : s = t
    · subst hs
      simp at h
      obtain ⟨hv, hrest⟩ := h
      subst hv; subst hrest
      simp [eraseOutermost]
    · rw [pop?_cons_ne s t hs] at h
      obtain ⟨vc, hpop, heq⟩ := Option.map_eq_some'.mp h
      obtain ⟨v', rest'⟩ := vc
      obtain ⟨hv, hrest⟩ := Prod.mk.inj heq
      subst hv; subst hrest
      obtain ⟨hget, hlist⟩ := ih rest' hpop
      simp [hs, hget, eraseOutermost, hlist]

/-- What `set` produces: the original slot list with exactly the
outermost slot of the requested item type replaced. -/
theorem set?_eq_some (c : Ctx ι El) (t : ι) (v : El t) (c' : Ctx ι El)
    (h : c.set? t v = some c') :
    c'.toList = setOutermost t v c.toList := by
  induction c generalizing c' with
  | emp => simp at h
  | cons s x tail ih =>
    by_cases hs : s = t
    · subst hs
      simp at h
      subst h
      simp [setOutermost]
    · simp [hs, Option.map_eq_some'] at h
      obtain ⟨tl, hset, hc'⟩ := h
      subst hc'
      simp [setOutermost, hs, ih tl hset]

/-- Writing through `get_mut` is the same state transformation as `set`:
both resolve to the same slot. -/
theorem getMutWrite?_eq_set? (c : Ctx ι El) (t : ι) (v : El t) :
    c.getMutWrite? t v = c.set? t v := by
  induction c with
  | emp => rfl
  | cons s x tail ih =>
    by_cases hs : s = t
    · subst hs; simp
    · simp [hs, ih]

theorem set?_get_self (c : Ctx ι El) (t : ι) (v : El t) (c' : Ctx ι El)
    (h : c.set? t v = some c') : c'.get? t = some v := by
  induction c generalizing c' with
  | emp => simp at h
  | cons s x tail ih =>
    by_cases hs : s = t
    · subst hs; simp at h; subst h; simp
    · simp [hs, Option.map_eq_some'] at h
      obtain ⟨tl, hset, hc'⟩ := h
      subst hc'
      simp [hs, ih tl hset]

end Ctx

/-- Erasing the outermost slot of one item type does not change what the
outermost slot of any other item type is. -/
theorem outermostVal?_eraseOutermost {ι : Type u} {El : ι → Type v}
    [DecidableEq ι] (s t : ι) (hst : s ≠ t) (l : List ((i : ι) × El i)) :
    outermostVal? s (eraseOutermost t l) = outermostVal? s l := by
  induction l with
  | nil => rfl
  | cons p rest ih =>
    by_cases h : p.1 = t
    · have hps : p.1 ≠ s := fun hp => hst ((hp ▸ h : s = t))
      simp [eraseOutermost, h, outermostVal?, hps, Ne.symm hst]
    · by_cases hps : p.1 = s
      · simp [eraseOutermost, h, outermostVal?, hps, hst]
      · simp [eraseOutermost, h, outermostVal?, hps, ih]

/-- Replacing the outermost slot of one item type does not change what
the outermost slot of any other item type is. -/
theorem outermostVal?_setOutermost {ι : Type u} {El : ι → Type v}
    [DecidableEq ι] (s t : ι) (hst : s ≠ t) (x : El t)
    (l : List ((i : ι) × El i)) :
    outermostVal? s (setOutermost t x l) = outermostVal? s l := by
  induction l with
  | nil => rfl
  | cons p rest ih =>
    by_cases h : p.1 = t
    · have hps : p.1 ≠ s := fun hp => hst ((hp ▸ h : s = t))
      have hts : t ≠ s := fun hp => hst hp.symm
      simp [setOutermost, h, outermostVal?, hps, hts]
    · by_cases hps : p.1 = s
      · simp [setOutermost, h, outermostVal?, hps, hst]
      · simp [setOutermost, h, outermostVal?, hps, ih]

/-- Replacing the outermost slot of an item type keeps the tag list, and
hence the static nesting shape, unchanged. -/
theorem map_fst_setOutermost {ι : Type u} {El : ι → Type v}
    [DecidableEq ι] (t : ι) (x : El t) (l : List ((i : ι) × El i)) :
    (setOutermost t x l).map Sigma.fst = l.map Sigma.fst := by
  induction l with
  | nil => rfl
  | cons p rest ih =>
    by_cases h : p.1 = t
    · simp [setOutermost, h]
    · simp [setOutermost, h, ih]

section MakeContext

variable {ι : Type u} {El : ι → Type v} [DecidableEq ι]

/-- The `make_context!` recursion is a right fold of `push` over the
value list. -/
theorem make_context_eq_foldr (l : List ((s : ι) × El s)) :
    make_context l = l.foldr (fun v c => c.push v.1 v.2) Ctx.emp := by
  induction l with
  | nil => rfl
  | cons v vs ih => simp [make_context, ih]

/-- The tag list (static type) of `make_context!`'s value is exactly the
type `make_context_ty!` builds from the item types in the same order. -/
theorem tags_make_context (l : List ((s : ι) × El s)) :
    (make_context l).tags = make_context_ty (l.map Sigma.fst) := by
  induction l with
  | nil => rfl
  | cons v vs ih => simp [make_context, make_context_ty, ih]

/-- In a container built from slots with pairwise-distinct item types,
`get` finds each listed value. -/
theorem get?_make_context (l : List ((s : ι) × El s))
    (hnd : (l.map Sigma.fst).Nodup) (p : (s : ι) × El s) (hp : p ∈ l) :
    (make_context l).get? p.1 = some p.2 := by
  induction l with
  | nil => simp at hp
  | cons q rest ih =>
    rw [make_context]
    rcases List.mem_cons.mp hp with hq | hq
    · subst hq; simp
    · have hne : q.1 ≠ p.1 := by
        intro he
        have hmem : p.1 ∈ rest.map Sigma.fst := List.mem_map_of_mem _ hq
        exact (List.nodup_cons.mp hnd).1 (he ▸ hmem)
      simp only [Ctx.push_def]
      rw [Ctx.get?_cons_ne q.1 p.1 hne]
      exact ih (List.nodup_cons.mp hnd).2 hq

end MakeContext

/-! ### Claim theorems -/

section Claims

variable {ι : Type u} {El : ι → Type v} [DecidableEq ι]

/-- C1: Push/pop inverse law: for every container value `c` (including
the terminal marker) and every value `x` of a declared type `t`, popping
the container obtained by pushing `x` onto `c` returns exactly the pair
`(x, c)`. -/
theorem push_pop_inverse (c : Ctx ι El) (t : ι) (x : El t) :
    (c.push t x).pop? t = some (x, c) := by
  simp

/-- C2: Order-independence of capability: for pairwise-distinct declared
item types and a container built by pushing one value of each type onto
the terminal marker in any order, `get` for each listed item type returns
the value of that type, regardless of the order used. -/
theorem order_independence (l : List ((s : ι) × El s))
    (hnd : (l.map Sigma.fst).Nodup) (p : (s : ι) × El s) (hp : p ∈ l) :
    (l.foldl (fun c v => c.push v.1 v.2) Ctx.emp).get? p.1 = some p.2 := by
  have h1 : make_context l.reverse
      = l.foldl (fun c v => c.push v.1 v.2) Ctx.emp := by
    rw [make_context_eq_foldr, List.foldr_reverse]
  rw [← h1]
  exact get?_make_context l.reverse
    (by simpa using hnd) p (List.mem_reverse.mpr hp)

/-- C3: Remove excises exactly one slot and frames the rest: popping `t`
from a container with the capability for `t` yields the outermost `t`
value (the one `get` resolves to) and a remainder whose slot list is the
original with exactly that slot excised — every other slot's value and
relative order unchanged — and on which `get`/`pop` for every other item
type still resolve to the same values. -/
theorem remove_frame (c : Ctx ι El) (t : ι) (h : t ∈ c.tags) :
    ∃ v rest, c.pop? t = some (v, rest)
      ∧ c.get? t = some v
      ∧ rest.toList = eraseOutermost t c.toList
      ∧ ∀ s, s ≠ t → rest.get? s = c.get? s
        ∧ (rest.pop? s).map Prod.fst = (c.pop? s).map Prod.fst := by
  obtain ⟨⟨v, rest⟩, hpop⟩ :=
    Option.isSome_iff_exists.mp (Ctx.pop?_isSome_of_mem c t h)
  obtain ⟨hget, hlist⟩ := Ctx.pop?_eq_some c t v rest hpop
  refine ⟨v, rest, hpop, hget, hlist, ?_⟩
  intro s hs
  have hgs : rest.get? s = c.get? s := by
    rw [Ctx.get?_eq_outermostVal, Ctx.get?_eq_outermostVal, hlist,
      outermostVal?_eraseOutermost s t hs]
  exact ⟨hgs, by rw [Ctx.pop?_map_fst, Ctx.pop?_map_fst, hgs]⟩

/-- C4: Shadowing: after pushing `x1` then `x2` of the same item type,
`get` returns `x2`; `pop` yields `x2` with the remainder `c.push t x1`;
and on that remainder the older occurrence `x1` is reachable again via
`get`. -/
theorem shadowing (c : Ctx ι El) (t : ι) (x1 x2 : El t) :
    ((c.push t x1).push t x2).get? t = some x2
      ∧ ((c.push t x1).push t x2).pop? t = some (x2, c.push t x1)
      ∧ (c.push t x1).get? t = some x1 := by
  simp

/-- C5: Depth traversal correctness: pushing values of types `t1`, `t2`,
`t3` onto the terminal marker and then popping three times, each time the
outermost remaining item's type, yields `x3`, `x2`, `x1` — the reverse of
the extension order — ending at the terminal marker. -/
theorem depth_traversal (t1 t2 t3 : ι) (x1 : El t1) (x2 : El t2)
    (x3 : El t3) :
    ((((Ctx.emp : Ctx ι El).push t1 x1).push t2 x2).push t3 x3).pop? t3
        = some (x3, ((Ctx.emp : Ctx ι El).push t1 x1).push t2 x2)
      ∧ (((Ctx.emp : Ctx ι El).push t1 x1).push t2 x2).pop? t2
        = some (x2, (Ctx.emp : Ctx ι El).push t1 x1)
      ∧ ((Ctx.emp : Ctx ι El).push t1 x1).pop? t1
        = some (x1, (Ctx.emp : Ctx ι El)) := by
  simp

/-- C6: Get/set resolve to the outermost matching slot with no other
effect: `get` reads the outermost slot of the requested item type, and
`set` succeeds and replaces exactly that slot's contents — the nesting
shape is unchanged, `get` afterwards returns the written value, and every
other item type still resolves to the same value. -/
theorem get_set_outermost (c : Ctx ι El) (t : ι) (x : El t)
    (h : t ∈ c.tags) :
    c.get? t = outermostVal? t c.toList
      ∧ ∃ c', c.set? t x = some c'
        ∧ c'.toList = setOutermost t x c.toList
        ∧ c'.tags = c.tags
        ∧ c'.get? t = some x
        ∧ ∀ s, s ≠ t → c'.get? s = c.get? s := by
  refine ⟨Ctx.get?_eq_outermostVal c t, ?_⟩
  obtain ⟨c', hset⟩ :=
    Option.isSome_iff_exists.mp (Ctx.set?_isSome_of_mem c t x h)
  have hlist := Ctx.set?_eq_some c t x c' hset
  refine ⟨c', hset, hlist, ?_, Ctx.set?_get_self c t x c' hset, ?_⟩
  · rw [Ctx.tags_eq_map_toList, Ctx.tags_eq_map_toList, hlist,
      map_fst_setOutermost]
  · intro s hs
    rw [Ctx.get?_eq_outermostVal, Ctx.get?_eq_outermostVal, hlist,
      outermostVal?_setOutermost s t hs]

/-- C7: No runtime failure: on a container whose type provides the
capability for `t`, `get` and `pop` always produce a result (there is no
"not found" outcome), and `push` always succeeds with no duplicate check
— even when `t` is already present, it simply prepends a new outermost
slot. -/
theorem no_runtime_failure (c : Ctx ι El) (t : ι) (h : t ∈ c.tags) :
    (c.get? t).isSome ∧ (c.pop? t).isSome
      ∧ ∀ x : El t, (c.push t x).tags = t :: c.tags :=
  ⟨Ctx.get?_isSome_of_mem c t h, Ctx.pop?_isSome_of_mem c t h,
    fun _ => rfl⟩

/-- C8: Binder identity: `with_context(handler, ctx)` builds a wrapper
whose `api()` is exactly the paired handler reference and whose
`context()` is exactly the paired context value; both are plain
projections, deriving no new state. -/
theorem binder_identity {T : Type u} {C : Type v} (handler : T) (ctx : C) :
    (with_context handler ctx).api = handler
      ∧ (with_context handler ctx).context = ctx :=
  ⟨rfl, rfl⟩

/-- C9: `make_context!` reverses its argument list: the value it builds
from `v1, ..., vn` equals the terminal marker pushed with `vn`, then
`vn-1`, ..., then `v1` (so the first listed value is the outermost head),
and its tag list is exactly `make_context_ty!` applied to the item types
in the same argument order. -/
theorem make_context_reverses (l : List ((s : ι) × El s)) :
    make_context l = l.reverse.foldl (fun c v => c.push v.1 v.2) Ctx.emp
      ∧ (make_context l).tags = make_context_ty (l.map Sigma.fst) := by
  refine ⟨?_, tags_make_context l⟩
  rw [List.foldl_reverse]
  exact make_context_eq_foldr l

/-- C10: Mutable-access coherence: writing `x` through the reference
`get_mut` resolves is the same state transformation as `set` (they target
the same slot), a subsequent `get` returns `x`, the nesting shape is
unchanged, and every other item type still resolves to the same value. -/
theorem get_mut_coherence (c : Ctx ι El) (t : ι) (x : El t)
    (h : t ∈ c.tags) :
    c.getMutWrite? t x = c.set? t x
      ∧ ∃ c', c.getMutWrite? t x = some c'
        ∧ c'.get? t = some x
        ∧ c'.tags = c.tags
        ∧ ∀ s, s ≠ t → c'.get? s = c.get? s := by
  refine ⟨Ctx.getMutWrite?_eq_set? c t x, ?_⟩
  obtain ⟨c', hset⟩ :=
    Option.isSome_iff_exists.mp (Ctx.set?_isSome_of_mem c t x h)
  have hlist := Ctx.set?_eq_some c t x c' hset
  refine ⟨c', ?_, Ctx.set?_get_self c t x c' hset, ?_, ?_⟩
  · rw [Ctx.getMutWrite?_eq_set?]
    exact hset
  · rw [Ctx.tags_eq_map_toList, Ctx.tags_eq_map_toList, hlist,
      map_fst_setOutermost]
  · intro s hs
    rw [Ctx.get?_eq_outermostVal, Ctx.get?_eq_outermostVal, hlist,
      outermostVal?_setOutermost s t hs]

end Claims

/-! ### Concrete witnesses -/

/-- A small concrete container over `Nat` tags and `Nat` values:
`emp.push 2 20 |>.push 1 10`, i.e. item type `1` holds `10` outermost and
item type `2` holds `20` inside. -/
def natCtx2 : Ctx Nat (fun _ => Nat) :=
  Ctx.cons 1 10 (Ctx.cons 2 20 Ctx.emp)

theorem order_independence_witness :
    (([⟨1, 10⟩, ⟨2, 20⟩] : List ((_ : Nat) × Nat)).map Sigma.fst).Nodup
      ∧ (⟨2, 20⟩ : (_ : Nat) × Nat) ∈ ([⟨1, 10⟩, ⟨2, 20⟩] : List ((_ : Nat) × Nat))
      ∧ (([⟨1, 10⟩, ⟨2, 20⟩] : List ((_ : Nat) × Nat)).foldl
          (fun c v => c.push v.1 v.2)
          (Ctx.emp : Ctx Nat (fun _ => Nat))).get? 2 = some 20 :=
  ⟨by decide, by decide,
    order_independence [⟨1, 10⟩, ⟨2, 20⟩] (by decide) ⟨2, 20⟩ (by decide)⟩

theorem remove_frame_witness :
    2 ∈ natCtx2.tags
      ∧ ∃ v rest, natCtx2.pop? 2 = some (v, rest)
        ∧ natCtx2.get? 2 = some v
        ∧ rest.toList = eraseOutermost 2 natCtx2.toList
        ∧ ∀ s, s ≠ 2 → rest.get? s = natCtx2.get? s
          ∧ (rest.pop? s).map Prod.fst = (natCtx2.pop? s).map Prod.fst :=
  ⟨by decide, remove_frame natCtx2 2 (by decide)⟩

theorem get_set_outermost_witness :
    2 ∈ natCtx2.tags
      ∧ (natCtx2.get? 2 = outermostVal? 2 natCtx2.toList
        ∧ ∃ c', natCtx2.set? 2 99 = some c'
          ∧ c'.toList = setOutermost 2 99 natCtx2.toList
          ∧ c'.tags = natCtx2.tags
          ∧ c'.get? 2 = some 99
          ∧ ∀ s, s ≠ 2 → c'.get? s = natCtx2.get? s) :=
  ⟨by decide, get_set_outermost natCtx2 2 99 (by decide)⟩

theorem no_runtime_failure_witness :
    2 ∈ natCtx2.tags
      ∧ ((natCtx2.get? 2).isSome ∧ (natCtx2.pop? 2).isSome
        ∧ ∀ x : Nat, (natCtx2.push 2 x).tags = 2 :: natCtx2.tags) :=
  ⟨by decide, no_runtime_failure natCtx2 2 (by decide)⟩

theorem get_mut_coherence_witness :
    2 ∈ natCtx2.tags
      ∧ (natCtx2.getMutWrite? 2 77 = natCtx2.set? 2 77
        ∧ ∃ c', natCtx2.getMutWrite? 2 77 = some c'
          ∧ c'.get? 2 = some 77
          ∧ c'.tags = natCtx2.tags
          ∧ ∀ s, s ≠ 2 → c'.get? s = natCtx2.get? s) :=
  ⟨by decide, get_mut_coherence natCtx2 2 77 (by decide)⟩

end Swagger
